import Mathlib

/-!
Verification development for the databoard fold-training orchestrator and
greedy ensemble engine (files `databoard/model.py`, `databoard/generic.py`,
`databoard/specific/events/iris_test.py`).

The Python sources are shallowly embedded:
* submission / per-fold lifecycle states become an inductive enum,
* numpy arrays of floats become lists of rationals (`List ℚ`), with NaN
  entries modelled as `none` in `List (Option ℚ)` where NaN semantics
  matter (`np.nanmean`),
* fallible code (IndexError on a missing class label, IOError /
  unpickling failure on a cached artifact) returns `Option` / `Except`,
* external collaborators (the pluggable score object, the sklearn
  isotonic regressor, the model provider) are parameters of the
  embedded functions, mirroring the configuration indirection
  (`specific.score`, `specific.train_model`, ...) of the source.
-/

namespace Databoard

/-! ## Submission lifecycle states (`databoard/model.py`, `submission_states`) -/

/-- The state enum of `model.py`: `db.Enum('new', 'checked', 'checking_error',
'trained', 'training_error', 'validated', 'validating_error', 'tested',
'testing_error')`. -/
inductive SubState where
  | new
  | checked
  | checking_error
  | trained
  | training_error
  | validated
  | validating_error
  | tested
  | testing_error
deriving DecidableEq, Repr

/-- The Python test `'error' in self.state` on the state's string name:
true exactly for the four `*_error` states. -/
def state_has_error : SubState → Bool
  | SubState.checking_error => true
  | SubState.training_error => true
  | SubState.validating_error => true
  | SubState.testing_error => true
  | _ => false

/-- Embedding of `Submission.set_state_after_training` (model.py lines
679-703).  A fold is a pair (state, error message); the submission's prior
state and error message are the other inputs, and the result is the new
(state, error message) pair.  The cascade of `if`/`elif` branches and the
final clearing `if 'error' not in self.state: self.error_msg = ''` are
translated literally; `states.index(x)` followed by
`self.on_cv_folds[i].error_msg` is the message of the first fold whose
state is `x`, i.e. `List.find?`. -/
def set_state_after_training (prior_state : SubState) (prior_error_msg : String)
    (folds : List (SubState × String)) : SubState × String :=
  let states := folds.map Prod.fst
  let r :=
    if ∀ s ∈ states, s = SubState.tested then
      (SubState.tested, prior_error_msg)
    else if ∀ s ∈ states, s = SubState.tested ∨ s = SubState.validated then
      (SubState.validated, prior_error_msg)
    else if ∀ s ∈ states, s = SubState.tested ∨ s = SubState.validated ∨ s = SubState.trained then
      (SubState.trained, prior_error_msg)
    else if ∃ s ∈ states, s = SubState.training_error then
      (SubState.training_error,
        ((folds.find? (fun f => decide (f.1 = SubState.training_error))).map Prod.snd).getD prior_error_msg)
    else if ∃ s ∈ states, s = SubState.validating_error then
      (SubState.validating_error,
        ((folds.find? (fun f => decide (f.1 = SubState.validating_error))).map Prod.snd).getD prior_error_msg)
    else if ∃ s ∈ states, s = SubState.testing_error then
      (SubState.testing_error,
        ((folds.find? (fun f => decide (f.1 = SubState.testing_error))).map Prod.snd).getD prior_error_msg)
    else (prior_state, prior_error_msg)
  if state_has_error r.1 then r else (r.1, "")

/-! ## Prediction combiner (`model.py`, `combine_predictions_list`) -/

/-- The `Predictions` value object of model.py, reduced to the data the
combiner touches: its combinable numeric view `y_pred_comb`, a flat array
of floats in which a NaN entry is modelled as `none`. -/
structure Predictions where
  y_pred_comb : List (Option ℚ)
deriving DecidableEq, Repr, Inhabited

/-- Semantics of `np.nanmean` on one slice: the mean of the non-NaN
entries, or NaN (`none`) when every entry is NaN. -/
def nanmean1 (xs : List (Option ℚ)) : Option ℚ :=
  let v := xs.filterMap id
  if v = [] then none else some (v.sum / v.length)

/-- Semantics of `np.nanmean(a, axis=0)` for a rectangular stack of rows:
position `j` of the result is the nanmean of the entries at position `j`
of every row.  The row count and width come from the stacked array, whose
width numpy takes from its rows (here: the first row). -/
def nanmeanRows (rows : List (List (Option ℚ))) : List (Option ℚ) :=
  match rows with
  | [] => []
  | r0 :: _ =>
    (List.range r0.length).map (fun j => nanmean1 (rows.map (fun r => r.getD j none)))

/-- Embedding of `combine_predictions_list` (model.py lines 402-449):
select the combinable views of the predictions named by `index_list`
(the whole list when `index_list` is `None`) and average them with
`np.nanmean(..., axis=0)`.  The source wraps the averaged array back into
a `Predictions`; we return the array, which is that object's content. -/
def combine_predictions_list (predictions_list : List Predictions)
    (index_list : Option (List ℕ)) : List (Option ℚ) :=
  let il := index_list.getD (List.range predictions_list.length)
  nanmeanRows (il.map (fun i => (predictions_list.getD i default).y_pred_comb))

/-! ## Per-fold records and their worker update (`model.py`, `SubmissionOnCVFold.update`) -/

/-- The fields of `SubmissionOnCVFold` that `update` can read or write
(model.py lines 779-895).  Scores are stored as plain numbers
(`ScoreType` wraps a float column). -/
structure FoldRecord where
  contributivity : ℚ
  best : Bool
  full_train_predictions : Option Predictions
  test_predictions : Option Predictions
  train_time : ℚ
  valid_time : ℚ
  test_time : ℚ
  train_score : ℚ
  valid_score : ℚ
  test_score : ℚ
  state : SubState
  error_msg : String
deriving DecidableEq, Repr

/-- The fields of `DetachedSubmissionOnCVFold` that `update` reads. -/
structure DetachedFold where
  state : SubState
  error_msg : String
  train_time : ℚ
  valid_time : ℚ
  test_time : ℚ
  full_train_predictions : Option Predictions
  test_predictions : Option Predictions
deriving DecidableEq, Repr

/-- The score computations `compute_train_scores`, `compute_valid_scores`,
`compute_test_scores` run by `update`: each scores the freshly stored
predictions against the ground truth held by external collaborators
(`generic.get_true_predictions_*`, `specific.score`), which are fixed for
a run; they are therefore functions of the stored predictions only. -/
structure ScoreComputations where
  train_score_of : Option Predictions → ℚ
  valid_score_of : Option Predictions → ℚ
  test_score_of : Option Predictions → ℚ

/-- Embedding of `SubmissionOnCVFold.update` (model.py lines 876-895):
copy the worker's state; on an error state copy only the error message;
otherwise copy times and predictions for the stages the new state has
passed and recompute the affected scores. -/
def FoldRecord.update (ctx : ScoreComputations) (r : FoldRecord) (d : DetachedFold) : FoldRecord :=
  let r1 : FoldRecord := { r with state := d.state }
  if state_has_error r1.state then
    { r1 with error_msg := d.error_msg }
  else
    let r2 :=
      if r1.state = SubState.trained ∨ r1.state = SubState.validated ∨ r1.state = SubState.tested
      then { r1 with train_time := d.train_time } else r1
    let r3 :=
      if r2.state = SubState.validated ∨ r2.state = SubState.tested then
        let r3a := { r2 with valid_time := d.valid_time,
                             full_train_predictions := d.full_train_predictions }
        { r3a with train_score := ctx.train_score_of r3a.full_train_predictions,
                   valid_score := ctx.valid_score_of r3a.full_train_predictions }
      else r2
    if r3.state = SubState.tested then
      let r4 := { r3 with test_time := d.test_time, test_predictions := d.test_predictions }
      { r4 with test_score := ctx.test_score_of r4.test_predictions }
    else r3

/-! ## Greedy ensemble engine, model.py side (`get_next_best_single_fold`) -/

/-- Embedding of `get_next_best_single_fold` (model.py lines 706-757).
The pluggable score object (`specific.score`) is the parameter `score`
applied to the ground truth `true_predictions` and a combined prediction
array; its overloaded comparison is the linear order on `S` ("x > y means
x is better than y").  The loop over `range(len(predictions_list))`
tracks the running best score and the best index (initially `-1`); an
index is accepted only on strict improvement.  The fold returns the index
list (with the winning index appended when one exists) and the best
score. -/
def get_next_best_single_fold {G S : Type} [LinearOrder S]
    (score : G → List (Option ℚ) → S) (true_predictions : G)
    (predictions_list : List Predictions) (best_index_list : List ℕ) :
    List ℕ × S :=
  let r :=
    (List.range predictions_list.length).foldl
      (fun (acc : S × ℤ) (i : ℕ) =>
        if score true_predictions
             (combine_predictions_list predictions_list (some (best_index_list ++ [i]))) > acc.1
        then (score true_predictions
               (combine_predictions_list predictions_list (some (best_index_list ++ [i]))), (i : ℤ))
        else acc)
      (score true_predictions (combine_predictions_list predictions_list (some best_index_list)), -1)
  if r.2 > -1 then (best_index_list ++ [r.2.toNat], r.1) else (best_index_list, r.1)

/-! ## Greedy ensemble engine, generic.py side
(`combine_models_using_probas`, `best_combine`, `get_best_index_list`) -/

/-- Semantics of `np.argmax`: the index of the first occurrence of the
maximum (0 on an empty array, which numpy rejects; callers pass nonempty
rows). -/
def argmaxIdx {β : Type} [LinearOrder β] : List β → ℕ
  | [] => 0
  | x :: xs =>
    let j := argmaxIdx xs
    match xs.get? j with
    | some m => if x < m then j + 1 else 0
    | none => 0

/-- Embedding of `get_y_pred_array` (generic.py lines 516-518): label of
the argmax of each row of class probabilities (`specific.labels` is the
external label table). -/
def get_y_pred_array {L : Type} [Inhabited L] (labels : List L)
    (y_probas_array : List (List ℚ)) : List L :=
  y_probas_array.map (fun y_probas => labels.getD (argmaxIdx y_probas) default)

/-- Semantics of `np.array(ms).mean(axis=0)` for a stack of equal-shape
matrices: entry (r, c) of the result is the plain mean over the stack.
Shape is taken from the first matrix, as numpy takes it from the stacked
array. -/
def meanMats (ms : List (List (List ℚ))) : List (List ℚ) :=
  match ms with
  | [] => []
  | m0 :: _ =>
    m0.mapIdx (fun r row =>
      row.mapIdx (fun c _ =>
        (ms.map (fun m => (m.getD r []).getD c 0)).sum / ms.length))

/-- Embedding of `combine_models_using_probas` (generic.py lines 522-550).
A prediction here is the tuple `(y_pred_array, y_probas_array)` of the old
generic.py; combining means averaging the selected probability arrays and
recomputing the predicted labels via argmax.  An empty `indexes` list
means the full list. -/
def combine_models_using_probas {L : Type} [Inhabited L] (labels : List L)
    (predictions_list : List (List L × List (List ℚ))) (indexes : List ℕ) :
    List L × List (List ℚ) :=
  let idxs := if indexes.length = 0 then List.range predictions_list.length else indexes
  let combined := meanMats (idxs.map (fun i => (predictions_list.getD i default).2))
  (get_y_pred_array labels combined, combined)

/-- Embedding of `best_combine` (generic.py lines 481-513): one round of
greedy forward selection with replacement.  The loop tracks the running
best combined predictions and the best index (initially `-1`), compares
with the score's strict `>`, and appends the winning index to
`best_indexes` when one exists. -/
def best_combine {L G S : Type} [Inhabited L] [LinearOrder S] (labels : List L)
    (ground_truth : G) (score : G → List L × List (List ℚ) → S)
    (predictions_list : List (List L × List (List ℚ))) (best_indexes : List ℕ) :
    List ℕ :=
  let r :=
    (List.range predictions_list.length).foldl
      (fun (acc : (List L × List (List ℚ)) × ℤ) (i : ℕ) =>
        if score ground_truth (combine_models_using_probas labels predictions_list (best_indexes ++ [i]))
             > score ground_truth acc.1
        then (combine_models_using_probas labels predictions_list (best_indexes ++ [i]), (i : ℤ))
        else acc)
      (combine_models_using_probas labels predictions_list best_indexes, -1)
  if r.2 > -1 then best_indexes ++ [r.2.toNat] else best_indexes

/-- The `while improvement` loop shared by the greedy drivers: run `step`
repeatedly, stopping as soon as a round leaves the length of the index
list unchanged; `fuel` bounds the number of rounds (the generic.py loop
is syntactically unbounded, so any finite run is a run of this function
with large enough fuel). -/
def loop_until_stable (step : List ℕ → List ℕ) : ℕ → List ℕ → List ℕ
  | 0, best_index_list => best_index_list
  | fuel + 1, best_index_list =>
    let nb := step best_index_list
    if nb.length ≠ best_index_list.length then loop_until_stable step fuel nb
    else best_index_list

/-- Semantics of `np.max` with a default for the empty array (numpy
raises there; callers pass nonempty score lists). -/
def npMax {β : Type} [LinearOrder β] (d : β) : List β → β
  | [] => d
  | x :: xs => xs.foldl max x

/-- Embedding of the greedy driver of `get_best_index_list` (generic.py
lines 601-630), given the calibrated `predictions_list` built by its
preamble (lines 605-613, embedded separately as `calibrate` and
`get_y_pred_array`): score every single model, start from the singleton
list holding the argmax, iterate `best_combine` until a round adds
nothing, and return the index list together with the best single score
(`np.max`) and the score of the final combination. -/
def get_best_index_list {L G S : Type} [Inhabited L] [LinearOrder S] (fuel : ℕ)
    (labels : List L) (ground_truth : G) (score : G → List L × List (List ℚ) → S)
    (predictions_list : List (List L × List (List ℚ))) : List ℕ × S × S :=
  let valid_scores := predictions_list.map (fun predictions => score ground_truth predictions)
  let init : List ℕ := [argmaxIdx valid_scores]
  let best_index_list :=
    loop_until_stable (fun l => best_combine labels ground_truth score predictions_list l) fuel init
  let best_score := npMax (score ground_truth (combine_models_using_probas labels predictions_list init)) valid_scores
  let combined_score :=
    score ground_truth (combine_models_using_probas labels predictions_list best_index_list)
  (best_index_list, best_score, combined_score)

/-- Configured maximum ensemble size, `databoard/specific/events/iris_test.py`
line 27: `max_n_ensemble = 80  # max number of submissions in greedy ensemble`. -/
def max_n_ensemble : ℕ := 80

/-- Modelled from the spec: the bounded greedy selection loop
(`_get_combined_predictions_single_fold`, the caller of
`get_next_best_single_fold` named in its docstring) is not among the
source files; only its per-round step (model.py's
`get_next_best_single_fold`) and its configured bound
(iris_test.py's `max_n_ensemble`) are.  Per the spec it repeats the round
on one fold, stopping when a round appends nothing, with the number of
rounds bounded by the configured maximum ensemble size. -/
def combined_predictions_single_fold {G S : Type} [LinearOrder S]
    (score : G → List (Option ℚ) → S) (true_predictions : G)
    (predictions_list : List Predictions) (fuel : ℕ) (init : List ℕ) : List ℕ :=
  loop_until_stable
    (fun l => (get_next_best_single_fold score true_predictions predictions_list l).1) fuel init

/-! ## Insertion sort (used for `np.unique` and the pandas `sort` calls) -/

/-- Insert into a list sorted by the boolean comparison `le`. -/
def insertLe {α : Type} (le : α → α → Bool) (x : α) : List α → List α
  | [] => [x]
  | y :: ys => if le x y then x :: y :: ys else y :: insertLe le x ys

/-- Insertion sort by the boolean comparison `le`. -/
def sortLe {α : Type} (le : α → α → Bool) : List α → List α
  | [] => []
  | x :: xs => insertLe le x (sortLe le xs)

/-! ## Isotonic calibrator (`generic.py`, `IsotonicCalibrator`, `calibrate`) -/

/-- A matrix of per-sample, per-class probabilities: numpy's 2-d array,
carrying its column count explicitly (numpy knows `X.shape[1]` even for
zero rows). -/
structure Mat where
  ncols : ℕ
  rows : List (List ℚ)
deriving DecidableEq, Repr

/-- Column `c` of a matrix, `X[:, c]`. -/
def matCol (X : Mat) (c : ℕ) : List ℚ :=
  X.rows.map (fun r => r.getD c 0)

/-- Row selection `X[is]` by a numpy index array. -/
def matSelectRows (X : Mat) (idxs : List ℕ) : Mat :=
  ⟨X.ncols, idxs.map (fun i => X.rows.getD i [])⟩

/-- Element selection `y[is]` by a numpy index array. -/
def selectIdx (y : List ℚ) (idxs : List ℕ) : List ℚ :=
  idxs.map (fun i => y.getD i 0)

/-- Semantics of `np.sort(np.unique(y))`: the distinct values of `y` in
ascending order. -/
def sorted_unique (y : List ℚ) : List ℚ :=
  sortLe (fun a b => decide (a ≤ b)) y.dedup

/-- Embedding of `IsotonicCalibrator.fit` (generic.py lines 559-568).
The sklearn `IsotonicRegression(y_min=0., y_max=1., out_of_bounds='clip')`
regressor is the external parameter `iso_fit`, mapping the per-class
column and its 0/1 class indicator to a fitted per-class calibrator of
type `C`.  The source reads `labels[class_index]` for every column index;
when fewer distinct labels are present than there are columns this raises
an IndexError, modelled as `none`. -/
def calFit {C : Type} (iso_fit : List ℚ → List ℚ → C) (X : Mat) (y : List ℚ) :
    Option (List C) :=
  let labels := sorted_unique y
  if X.ncols ≤ labels.length then
    some ((List.range X.ncols).map (fun class_index =>
      iso_fit (matCol X class_index)
        (y.map (fun yi => if yi = labels.getD class_index 0 then (1 : ℚ) else 0))))
  else none

/-- Embedding of `IsotonicCalibrator.predict` (generic.py lines 570-577):
apply each per-class calibrator (`iso_predict`) to its column, then
renormalize each sample's row by its sum. -/
def calPredict {C : Type} [Inhabited C] (iso_predict : C → List ℚ → List ℚ)
    (calibrators : List C) (X : Mat) : List (List ℚ) :=
  let xct := (List.range X.ncols).map (fun class_index =>
    iso_predict (calibrators.getD class_index default) (matCol X class_index))
  (List.range X.rows.length).map (fun r =>
    let vals := xct.map (fun colv => colv.getD r 0)
    vals.map (fun v => v / vals.sum))

/-- Numpy fancy assignment `arr[idxs] = vals` on a list of rows. -/
def writeRows (arr : List (List ℚ)) (idxs : List ℕ) (vals : List (List ℚ)) :
    List (List ℚ) :=
  (idxs.zip vals).foldl (fun a p => a.set p.1 p.2) arr

/-- Embedding of `calibrate` (generic.py lines 586-598): two-fold
self-calibration.  The `StratifiedShuffleSplit` producing the two halves
is external (sklearn, seeded by `specific.random_state`); its output is
the pair `fold1`, `fold2` of index arrays.  The uninitialized
`np.empty` output array is modelled as zero rows; both halves are then
assigned: first fit on `fold1` writes `fold2`, then fit on `fold2`
writes `fold1`.  A failing fit (see `calFit`) aborts the whole call. -/
def calibrate {C : Type} [Inhabited C] (iso_fit : List ℚ → List ℚ → C)
    (iso_predict : C → List ℚ → List ℚ) (X : Mat) (ground_truth : List ℚ)
    (fold1 fold2 : List ℕ) : Option (List (List ℚ)) :=
  let arr0 : List (List ℚ) := X.rows.map (fun _ => List.replicate X.ncols 0)
  match calFit iso_fit (matSelectRows X fold1) (selectIdx ground_truth fold1) with
  | none => none
  | some cal1 =>
    let arr1 := writeRows arr0 fold2 (calPredict iso_predict cal1 (matSelectRows X fold2))
    match calFit iso_fit (matSelectRows X fold2) (selectIdx ground_truth fold2) with
    | none => none
    | some cal2 =>
      some (writeRows arr1 fold1 (calPredict iso_predict cal2 (matSelectRows X fold1)))

/-! ## Fold executor cache policy (`generic.py`, `test_on_fold`) -/

/-- State of the pickled model artifact for one (model, fold) key:
absent (opening raises IOError), present but not unpicklable
(`pickle.load` raises an UnpicklingError), or good. -/
inductive CacheState (M : Type) where
  | missing
  | corrupt
  | good (m : M)
deriving DecidableEq, Repr

/-- The Python exceptions distinguished by `test_on_fold`'s
`try ... except IOError` block. -/
inductive PyError where
  | ioError
  | unpicklingError
deriving DecidableEq, Repr

/-- Loading the pickled artifact: `open` on a missing file raises
IOError; `pickle.load` on a corrupt file raises an UnpicklingError. -/
def load_model {M : Type} : CacheState M → Except PyError M
  | CacheState.missing => Except.error PyError.ioError
  | CacheState.corrupt => Except.error PyError.unpicklingError
  | CacheState.good m => Except.ok m

/-- Embedding of `test_on_fold` (generic.py lines 231-247): try to load
the pickled model; on IOError retrain (`train_on_fold`, whose returned
trained model is the parameter `trained_model`, deterministic for the
fixed fold data); any other exception propagates.  On success the test
predictions `predict m` (i.e. `specific.test_model(m, X_test)`) are
produced. -/
def test_on_fold {M P : Type} (trained_model : M) (predict : M → P)
    (cache : CacheState M) : Except PyError P :=
  match load_model cache with
  | Except.ok m => Except.ok (predict m)
  | Except.error PyError.ioError => Except.ok (predict trained_model)
  | Except.error e => Except.error e

/-! ## Leaderboards (`generic.py`, `leaderboard_classical`,
`leaderboard_combination`) -/

/-- One bin of `np.histogram(vals, bins=range(m + 1))` for integer data:
bin `j` counts values in `[j, j+1)`, except the last bin `[m-1, m]`,
which is closed on the right. -/
def histCount (m : ℕ) (vals : List ℕ) (j : ℕ) : ℕ :=
  vals.countP (fun v => if j + 1 = m then decide (v = j) || decide (v = m) else decide (v = j))

/-- Embedding of `leaderboard_classical` (generic.py lines 459-479), given
the per-fold score rows `scores_list` computed by `get_scores` (one row
per cv fold, one entry per model, in the timestamp-sorted model order)
and the model count `m`.  The scores are averaged over folds
(`np.mean(..., axis=0)`) and the resulting (model, mean score) table is
sorted by the pandas default, ascending in the score's own comparison
order. -/
def leaderboard_classical {S : Type} [LinearOrderedField S]
    (scores_list : List (List S)) (m : ℕ) : List (ℕ × S) :=
  let mean_scores := (List.range m).map (fun j =>
    (scores_list.map (fun row => row.getD j 0)).sum / scores_list.length)
  sortLe (fun a b => decide (a.2 ≤ b.2))
    ((List.range m).map (fun j => (j, mean_scores.getD j 0)))

/-- Embedding of the tallying and ranking of `leaderboard_combination`
(generic.py lines 697-725), given the per-fold best index lists returned
by `get_best_index_list` (the file reading and `Parallel` dispatch around
it are external).  The counts are the summed `np.histogram` tallies and
the (model, contributivity) table is sorted descending
(`ascending=False`). -/
def leaderboard_combination (m : ℕ) (best_index_lists : List (List ℕ)) :
    List (ℕ × ℕ) :=
  let counts := (List.range m).map (fun j =>
    (best_index_lists.map (fun bil => histCount m bil j)).sum)
  sortLe (fun a b => decide (b.2 ≤ a.2))
    ((List.range m).map (fun j => (j, counts.getD j 0)))

/-! ## Helper lemmas -/

/-- The first element satisfying `p`, as `List.find?` returns it, is also
the element at the least index satisfying `p`. -/
lemma find?_first_index {α : Type} (p : α → Bool) (d : α) :
    ∀ l : List α, (∃ x ∈ l, p x = true) →
      ∃ i, i < l.length ∧ p (l.getD i d) = true ∧
        (∀ j < i, p (l.getD j d) = false) ∧ l.find? p = some (l.getD i d) := by
  intro l
  induction l with
  | nil => rintro ⟨x, hx, -⟩; exact absurd hx (List.not_mem_nil x)
  | cons a l ih =>
    intro h
    by_cases ha : p a = true
    · exact ⟨0, Nat.succ_pos _, ha, fun j hj => absurd hj (Nat.not_lt_zero j),
        by rw [List.find?_cons_of_pos _ ha]; rfl⟩
    · have ha' : p a = false := by revert ha; cases p a <;> simp
      obtain ⟨x, hx, hpx⟩ := h
      rcases List.mem_cons.mp hx with rfl | hx'
      · exact absurd hpx ha
      obtain ⟨i, hi, h1, h2, h3⟩ := ih ⟨x, hx', hpx⟩
      refine ⟨i + 1, Nat.succ_lt_succ hi, h1, ?_, ?_⟩
      · intro j hj
        cases j with
        | zero => exact ha'
        | succ j => exact h2 j (Nat.lt_of_succ_lt_succ hj)
      · rw [List.find?_cons_of_neg _ ha]; exact h3

/-! ## C1 / C10: submission state aggregation -/

/-- C1.  The submission state computed by `set_state_after_training` is
`tested` when all folds are `tested`; else `validated` when all folds are
in (tested, validated); else `trained` when all folds are in (tested,
validated, trained); else `training_error` / `validating_error` /
`testing_error` when some fold is, in that priority order, with the error
message of the first such fold; the error message is cleared whenever the
resolved state is not an error state.  In particular fold states
(tested, validated) resolve to `validated` and (tested, testing_error)
resolve to `testing_error` with the failing fold's message. -/
theorem c1_state_aggregation (prior_state : SubState) (prior_error_msg : String)
    (folds : List (SubState × String)) :
    ((∀ s ∈ folds.map Prod.fst, s = SubState.tested) →
      set_state_after_training prior_state prior_error_msg folds = (SubState.tested, "")) ∧
    (¬ (∀ s ∈ folds.map Prod.fst, s = SubState.tested) →
      (∀ s ∈ folds.map Prod.fst, s = SubState.tested ∨ s = SubState.validated) →
      set_state_after_training prior_state prior_error_msg folds = (SubState.validated, "")) ∧
    (¬ (∀ s ∈ folds.map Prod.fst, s = SubState.tested ∨ s = SubState.validated) →
      (∀ s ∈ folds.map Prod.fst,
        s = SubState.tested ∨ s = SubState.validated ∨ s = SubState.trained) →
      set_state_after_training prior_state prior_error_msg folds = (SubState.trained, "")) ∧
    ((∃ s ∈ folds.map Prod.fst, s = SubState.training_error) →
      ∃ i, i < folds.length ∧
        (folds.getD i (SubState.new, "")).1 = SubState.training_error ∧
        (∀ j < i, (folds.getD j (SubState.new, "")).1 ≠ SubState.training_error) ∧
        set_state_after_training prior_state prior_error_msg folds =
          (SubState.training_error, (folds.getD i (SubState.new, "")).2)) ∧
    ((¬ ∃ s ∈ folds.map Prod.fst, s = SubState.training_error) →
      (∃ s ∈ folds.map Prod.fst, s = SubState.validating_error) →
      ∃ i, i < folds.length ∧
        (folds.getD i (SubState.new, "")).1 = SubState.validating_error ∧
        (∀ j < i, (folds.getD j (SubState.new, "")).1 ≠ SubState.validating_error) ∧
        set_state_after_training prior_state prior_error_msg folds =
          (SubState.validating_error, (folds.getD i (SubState.new, "")).2)) ∧
    ((¬ ∃ s ∈ folds.map Prod.fst, s = SubState.training_error) →
      (¬ ∃ s ∈ folds.map Prod.fst, s = SubState.validating_error) →
      (∃ s ∈ folds.map Prod.fst, s = SubState.testing_error) →
      ∃ i, i < folds.length ∧
        (folds.getD i (SubState.new, "")).1 = SubState.testing_error ∧
        (∀ j < i, (folds.getD j (SubState.new, "")).1 ≠ SubState.testing_error) ∧
        set_state_after_training prior_state prior_error_msg folds =
          (SubState.testing_error, (folds.getD i (SubState.new, "")).2)) ∧
    (state_has_error (set_state_after_training prior_state prior_error_msg folds).1 = false →
      (set_state_after_training prior_state prior_error_msg folds).2 = "") ∧
    (set_state_after_training prior_state prior_error_msg
        [(SubState.tested, ""), (SubState.validated, "")] = (SubState.validated, "")) ∧
    (set_state_after_training prior_state prior_error_msg
        [(SubState.tested, "x"), (SubState.testing_error, "boom")] =
      (SubState.testing_error, "boom")) := by
  have clear_aux : ∀ r : SubState × String,
      state_has_error (if state_has_error r.1 then r else (r.1, "")).1 = false →
      (if state_has_error r.1 then r else (r.1, "")).2 = "" := by
    intro r
    by_cases hr : state_has_error r.1 = true
    · rw [if_pos hr]; intro h; rw [h] at hr; exact absurd hr (by simp)
    · rw [if_neg hr]; intro _; rfl
  have err_branch : ∀ (c : SubState) (hc : state_has_error c = true)
      (h : ∃ s ∈ folds.map Prod.fst, s = c),
      ∃ i, i < folds.length ∧ (folds.getD i (SubState.new, "")).1 = c ∧
        (∀ j < i, (folds.getD j (SubState.new, "")).1 ≠ c) ∧
        (if state_has_error
            (c, ((folds.find? (fun f => decide (f.1 = c))).map Prod.snd).getD prior_error_msg).1
          then (c, ((folds.find? (fun f => decide (f.1 = c))).map Prod.snd).getD prior_error_msg)
          else ((c, ((folds.find? (fun f => decide (f.1 = c))).map Prod.snd).getD prior_error_msg).1, "")) =
          (c, (folds.getD i (SubState.new, "")).2) := by
    intro c hc h
    obtain ⟨s, hs, rfl⟩ := h
    obtain ⟨f, hf, hfs⟩ := List.mem_map.mp hs
    obtain ⟨i, hi, hp, hmin, hfind⟩ :=
      find?_first_index (fun f => decide (f.1 = s)) (SubState.new, "") folds
        ⟨f, hf, decide_eq_true hfs⟩
    refine ⟨i, hi, of_decide_eq_true hp, ?_, ?_⟩
    · intro j hj
      exact of_decide_eq_false (hmin j hj)
    · rw [hfind, if_pos hc]
      rfl
  refine ⟨?_, ?_, ?_, ?_, ?_, ?_, ?_, by rfl, by rfl⟩
  · intro h1
    simp only [set_state_after_training]
    rw [if_pos h1]
    rfl
  · intro h1 h2
    simp only [set_state_after_training]
    rw [if_neg h1, if_pos h2]
    rfl
  · intro h2 h3
    have h1 : ¬ ∀ s ∈ folds.map Prod.fst, s = SubState.tested :=
      fun h1 => h2 (fun s hs => Or.inl (h1 s hs))
    simp only [set_state_after_training]
    rw [if_neg h1, if_neg h2, if_pos h3]
    rfl
  · intro h
    have h3 : ¬ ∀ s ∈ folds.map Prod.fst,
        s = SubState.tested ∨ s = SubState.validated ∨ s = SubState.trained := by
      intro hall
      obtain ⟨s, hs, rfl⟩ := h
      rcases hall _ hs with h' | h' | h' <;> exact SubState.noConfusion h'
    have h2 : ¬ ∀ s ∈ folds.map Prod.fst, s = SubState.tested ∨ s = SubState.validated :=
      fun h2 => h3 (fun s hs => (h2 s hs).elim Or.inl (fun h' => Or.inr (Or.inl h')))
    have h1 : ¬ ∀ s ∈ folds.map Prod.fst, s = SubState.tested :=
      fun h1 => h2 (fun s hs => Or.inl (h1 s hs))
    simp only [set_state_after_training]
    rw [if_neg h1, if_neg h2, if_neg h3, if_pos h]
    exact err_branch SubState.training_error rfl h
  · intro hnt h
    have h3 : ¬ ∀ s ∈ folds.map Prod.fst,
        s = SubState.tested ∨ s = SubState.validated ∨ s = SubState.trained := by
      intro hall
      obtain ⟨s, hs, rfl⟩ := h
      rcases hall _ hs with h' | h' | h' <;> exact SubState.noConfusion h'
    have h2 : ¬ ∀ s ∈ folds.map Prod.fst, s = SubState.tested ∨ s = SubState.validated :=
      fun h2 => h3 (fun s hs => (h2 s hs).elim Or.inl (fun h' => Or.inr (Or.inl h')))
    have h1 : ¬ ∀ s ∈ folds.map Prod.fst, s = SubState.tested :=
      fun h1 => h2 (fun s hs => Or.inl (h1 s hs))
    simp only [set_state_after_training]
    rw [if_neg h1, if_neg h2, if_neg h3, if_neg hnt, if_pos h]
    exact err_branch SubState.validating_error rfl h
  · intro hnt hnv h
    have h3 : ¬ ∀ s ∈ folds.map Prod.fst,
        s = SubState.tested ∨ s = SubState.validated ∨ s = SubState.trained := by
      intro hall
      obtain ⟨s, hs, rfl⟩ := h
      rcases hall _ hs with h' | h' | h' <;> exact SubState.noConfusion h'
    have h2 : ¬ ∀ s ∈ folds.map Prod.fst, s = SubState.tested ∨ s = SubState.validated :=
      fun h2 => h3 (fun s hs => (h2 s hs).elim Or.inl (fun h' => Or.inr (Or.inl h')))
    have h1 : ¬ ∀ s ∈ folds.map Prod.fst, s = SubState.tested :=
      fun h1 => h2 (fun s hs => Or.inl (h1 s hs))
    simp only [set_state_after_training]
    rw [if_neg h1, if_neg h2, if_neg h3, if_neg hnt, if_neg hnv, if_pos h]
    exact err_branch SubState.testing_error rfl h
  · simp only [set_state_after_training]
    exact clear_aux _

/-- Witness for C1 at a concrete input: all folds tested resolves to
(tested, empty message). -/
theorem c1_state_aggregation_witness :
    set_state_after_training SubState.new "old"
      [(SubState.tested, ""), (SubState.tested, "")] = (SubState.tested, "") :=
  (c1_state_aggregation SubState.new "old"
      [(SubState.tested, ""), (SubState.tested, "")]).1 (by decide)

/-- C10.  When no aggregation branch matches — some fold is still `new`,
`checked` or `checking_error` while no fold is in `training_error`,
`validating_error` or `testing_error` — the submission state is left at
its prior value, and the prior error message survives exactly when that
prior state is itself an error state (otherwise it is cleared). -/
theorem c10_no_branch_keeps_state (prior_state : SubState) (prior_error_msg : String)
    (folds : List (SubState × String))
    (h1 : ∃ f ∈ folds, f.1 = SubState.new ∨ f.1 = SubState.checked ∨
      f.1 = SubState.checking_error)
    (h2 : ∀ f ∈ folds, f.1 ≠ SubState.training_error ∧
      f.1 ≠ SubState.validating_error ∧ f.1 ≠ SubState.testing_error) :
    set_state_after_training prior_state prior_error_msg folds =
      (prior_state, if state_has_error prior_state then prior_error_msg else "") := by
  obtain ⟨f, hf, hfs⟩ := h1
  have hmem : f.1 ∈ folds.map Prod.fst := List.mem_map.mpr ⟨f, hf, rfl⟩
  have h3 : ¬ ∀ s ∈ folds.map Prod.fst,
      s = SubState.tested ∨ s = SubState.validated ∨ s = SubState.trained := by
    intro hall
    have hx := hall _ hmem
    rcases hfs with h' | h' | h' <;> rw [h'] at hx <;>
      rcases hx with h'' | h'' | h'' <;> exact SubState.noConfusion h''
  have hb2 : ¬ ∀ s ∈ folds.map Prod.fst, s = SubState.tested ∨ s = SubState.validated :=
    fun h' => h3 (fun s hs => (h' s hs).elim Or.inl (fun h'' => Or.inr (Or.inl h'')))
  have hb1 : ¬ ∀ s ∈ folds.map Prod.fst, s = SubState.tested :=
    fun h' => hb2 (fun s hs => Or.inl (h' s hs))
  have hnt : ¬ ∃ s ∈ folds.map Prod.fst, s = SubState.training_error := by
    rintro ⟨s, hs, rfl⟩
    obtain ⟨g, hg, hgs⟩ := List.mem_map.mp hs
    exact (h2 g hg).1 hgs
  have hnv : ¬ ∃ s ∈ folds.map Prod.fst, s = SubState.validating_error := by
    rintro ⟨s, hs, rfl⟩
    obtain ⟨g, hg, hgs⟩ := List.mem_map.mp hs
    exact (h2 g hg).2.1 hgs
  have hne : ¬ ∃ s ∈ folds.map Prod.fst, s = SubState.testing_error := by
    rintro ⟨s, hs, rfl⟩
    obtain ⟨g, hg, hgs⟩ := List.mem_map.mp hs
    exact (h2 g hg).2.2 hgs
  simp only [set_state_after_training]
  rw [if_neg hb1, if_neg hb2, if_neg h3, if_neg hnt, if_neg hnv, if_neg hne]
  by_cases hp : state_has_error prior_state = true
  · rw [if_pos hp, if_pos hp]
  · rw [if_neg hp, if_neg hp]

/-- Witness for C10 at a concrete input: a prior `checking_error` state
and message survive a no-branch aggregation step. -/
theorem c10_no_branch_keeps_state_witness :
    set_state_after_training SubState.checking_error "old" [(SubState.new, "")] =
      (SubState.checking_error, "old") := by
  have h := c10_no_branch_keeps_state SubState.checking_error "old" [(SubState.new, "")]
    ⟨(SubState.new, ""), by simp, Or.inl rfl⟩ (by decide)
  simpa using h

/-! ## C9: frame of the per-fold worker update on error states -/

/-- C9.  Updating a per-fold record from a worker result in an error
state changes only the state and error-message fields: predictions,
times and scores all keep their previous values. -/
theorem c9_error_update_frame (ctx : ScoreComputations) (r : FoldRecord) (d : DetachedFold)
    (h : state_has_error d.state = true) :
    r.update ctx d = { r with state := d.state, error_msg := d.error_msg } := by
  unfold FoldRecord.update
  rw [if_pos (by simpa using h)]

/-- Witness for C9 at a concrete input. -/
theorem c9_error_update_frame_witness :
    FoldRecord.update ⟨fun _ => 0, fun _ => 0, fun _ => 0⟩
      ⟨1, true, some ⟨[some 1]⟩, none, 2, 3, 4, 5, 6, 7, SubState.validated, ""⟩
      ⟨SubState.training_error, "boom", 9, 9, 9, none, none⟩ =
      ⟨1, true, some ⟨[some 1]⟩, none, 2, 3, 4, 5, 6, 7, SubState.training_error, "boom"⟩ :=
  c9_error_update_frame ⟨fun _ => 0, fun _ => 0, fun _ => 0⟩
    ⟨1, true, some ⟨[some 1]⟩, none, 2, 3, 4, 5, 6, 7, SubState.validated, ""⟩
    ⟨SubState.training_error, "boom", 9, 9, 9, none, none⟩ rfl

/-! ## C4: the nanmean prediction combiner -/

/-- Reading every position of a list with a default reconstructs the
list. -/
lemma getD_range_map {α : Type} (d : α) :
    ∀ xs : List α, (List.range xs.length).map (fun j => xs.getD j d) = xs := by
  intro xs
  induction xs with
  | nil => rfl
  | cons x t ih =>
    rw [List.length_cons, List.range_succ_eq_map, List.map_cons, List.map_map]
    have hcomp : List.map ((fun j => (x :: t).getD j d) ∘ Nat.succ) (List.range t.length) =
        List.map (fun j => t.getD j d) (List.range t.length) :=
      List.map_congr_left (fun j _ => List.getD_cons_succ)
    rw [hcomp, ih]
    rfl

/-- Unfolding of `nanmeanRows` on a nonempty stack. -/
lemma nanmeanRows_cons (a : List (Option ℚ)) (t : List (List (Option ℚ))) :
    nanmeanRows (a :: t) =
      (List.range a.length).map (fun j => nanmean1 ((a :: t).map (fun r => r.getD j none))) := rfl

/-- Nanmean of a single defined entry. -/
lemma nanmean1_single (v : ℚ) : nanmean1 [some v] = some v := by
  simp [nanmean1]

/-- Nanmean of a duplicated defined entry. -/
lemma nanmean1_double (v : ℚ) : nanmean1 [some v, some v] = some v := by
  unfold nanmean1
  rw [show List.filterMap id [some v, some v] = [v, v] by rfl]
  rw [if_neg (by simp)]
  have hs : ([v, v] : List ℚ).sum = v + v := by simp
  have hl : (([v, v] : List ℚ).length : ℚ) = 2 := by simp
  rw [hs, hl, add_self_div_two]

/-- Nanmean of a slice with at least one defined entry is defined. -/
lemma nanmean1_ne_none {xs : List (Option ℚ)} (h : ∃ x ∈ xs, x ≠ none) :
    nanmean1 xs ≠ none := by
  unfold nanmean1
  obtain ⟨x, hx, hxn⟩ := h
  obtain ⟨v, rfl⟩ := Option.ne_none_iff_exists'.mp hxn
  have hv : v ∈ xs.filterMap id := List.mem_filterMap.mpr ⟨some v, hx, rfl⟩
  rw [if_neg (fun he => by rw [he] at hv; exact absurd hv (List.not_mem_nil v))]
  simp

/-- Nanmean is invariant under permutation of its entries. -/
lemma nanmean1_perm {xs ys : List (Option ℚ)} (h : xs.Perm ys) :
    nanmean1 xs = nanmean1 ys := by
  unfold nanmean1
  have hp := h.filterMap id
  by_cases he : xs.filterMap id = []
  · rw [if_pos he, if_pos (by rw [he] at hp; exact hp.symm.eq_nil)]
  · rw [if_neg he, if_neg (fun he' => he (by rw [he'] at hp; exact hp.eq_nil)),
      hp.sum_eq, hp.length_eq]

/-- Membership of a defaulted read at a valid index. -/
lemma getD_mem_of_lt {α : Type} (xs : List α) (j : ℕ) (d : α) (hj : j < xs.length) :
    xs.getD j d ∈ xs := by
  rw [List.getD_eq_getElem xs d hj]
  exact List.getElem_mem hj

/-- C4.  The combiner takes the element-wise nanmean of the selected
combinable views: an omitted index list means the full list; a NaN entry
at some position is ignored rather than propagated as long as another
selected view is defined there; `combine([p])` and `combine([p, p])`
reproduce a NaN-free view `p`; and the result is invariant under
permuting the index multiset. -/
theorem c4_combine_predictions (predictions_list : List Predictions) (il il' : List ℕ)
    (p : Predictions) (L j : ℕ) :
    (combine_predictions_list predictions_list none =
      combine_predictions_list predictions_list (some (List.range predictions_list.length))) ∧
    (il ≠ [] → (∀ i ∈ il, i < predictions_list.length) →
      (∀ q ∈ predictions_list, q.y_pred_comb.length = L) → j < L →
      (combine_predictions_list predictions_list (some il)).getD j none =
        nanmean1 (il.map (fun i => (predictions_list.getD i default).y_pred_comb.getD j none)) ∧
      ((∃ i ∈ il, (predictions_list.getD i default).y_pred_comb.getD j none ≠ none) →
        (combine_predictions_list predictions_list (some il)).getD j none ≠ none)) ∧
    ((∀ x ∈ p.y_pred_comb, x ≠ none) →
      combine_predictions_list [p] none = p.y_pred_comb) ∧
    ((∀ x ∈ p.y_pred_comb, x ≠ none) →
      combine_predictions_list [p, p] none = p.y_pred_comb) ∧
    (il.Perm il' → (∀ i ∈ il, i < predictions_list.length) →
      (∀ q ∈ predictions_list, q.y_pred_comb.length = L) →
      combine_predictions_list predictions_list (some il) =
        combine_predictions_list predictions_list (some il')) := by
  refine ⟨rfl, ?_, ?_, ?_, ?_⟩
  · intro hne hv hL hj
    obtain ⟨i0, t, rfl⟩ := List.exists_cons_of_ne_nil hne
    have hkey : (combine_predictions_list predictions_list (some (i0 :: t))).getD j none =
        nanmean1 ((i0 :: t).map
          (fun i => (predictions_list.getD i default).y_pred_comb.getD j none)) := by
      show (nanmeanRows ((i0 :: t).map
        (fun i => (predictions_list.getD i default).y_pred_comb))).getD j none = _
      rw [List.map_cons, nanmeanRows_cons]
      have hlen : (predictions_list.getD i0 default).y_pred_comb.length = L :=
        hL _ (getD_mem_of_lt _ _ _ (hv i0 (List.mem_cons_self i0 t)))
      rw [hlen]
      have hjlen : j < ((List.range L).map (fun j => nanmean1
          (((predictions_list.getD i0 default).y_pred_comb ::
            t.map (fun i => (predictions_list.getD i default).y_pred_comb)).map
            (fun r => r.getD j none)))).length := by
        simpa using hj
      rw [List.getD_eq_getElem _ _ hjlen]
      rw [List.getElem_map, List.getElem_range]
      exact congrArg nanmean1 (by simp [List.map_map, Function.comp])
    refine ⟨hkey, fun hex => ?_⟩
    rw [hkey]
    refine nanmean1_ne_none ?_
    obtain ⟨i, hi, hni⟩ := hex
    exact ⟨_, List.mem_map.mpr ⟨i, hi, rfl⟩, hni⟩
  · intro hnn
    show nanmeanRows [p.y_pred_comb] = p.y_pred_comb
    rw [nanmeanRows_cons]
    have hmap : ∀ j ∈ List.range p.y_pred_comb.length,
        nanmean1 ([p.y_pred_comb].map (fun r => r.getD j none)) = p.y_pred_comb.getD j none := by
      intro j hj
      have hj' := List.mem_range.mp hj
      obtain ⟨v, hv⟩ := Option.ne_none_iff_exists'.mp
        (hnn _ (getD_mem_of_lt _ _ _ hj'))
      simp only [List.map_cons, List.map_nil]
      rw [hv, nanmean1_single]
    rw [List.map_congr_left hmap, getD_range_map]
  · intro hnn
    show nanmeanRows [p.y_pred_comb, p.y_pred_comb] = p.y_pred_comb
    rw [nanmeanRows_cons]
    have hmap : ∀ j ∈ List.range p.y_pred_comb.length,
        nanmean1 ([p.y_pred_comb, p.y_pred_comb].map (fun r => r.getD j none)) =
          p.y_pred_comb.getD j none := by
      intro j hj
      have hj' := List.mem_range.mp hj
      obtain ⟨v, hv⟩ := Option.ne_none_iff_exists'.mp
        (hnn _ (getD_mem_of_lt _ _ _ hj'))
      simp only [List.map_cons, List.map_nil]
      rw [hv, nanmean1_double]
    rw [List.map_congr_left hmap, getD_range_map]
  · intro hperm hv hL
    rcases il with _ | ⟨i0, t⟩
    · rw [hperm.symm.eq_nil]
    have hne' : il' ≠ [] := by
      intro he
      rw [he] at hperm
      exact absurd hperm.eq_nil (List.cons_ne_nil i0 t)
    obtain ⟨i0', t', rfl⟩ := List.exists_cons_of_ne_nil hne'
    show nanmeanRows ((i0 :: t).map (fun i => (predictions_list.getD i default).y_pred_comb)) =
      nanmeanRows ((i0' :: t').map (fun i => (predictions_list.getD i default).y_pred_comb))
    have hrows := hperm.map (fun i => (predictions_list.getD i default).y_pred_comb)
    rw [List.map_cons, List.map_cons, nanmeanRows_cons, nanmeanRows_cons]
    have hlen : (predictions_list.getD i0 default).y_pred_comb.length = L :=
      hL _ (getD_mem_of_lt _ _ _ (hv i0 (List.mem_cons_self i0 t)))
    have hv' : ∀ i ∈ i0' :: t', i < predictions_list.length :=
      fun i hi => hv i (hperm.mem_iff.mpr hi)
    have hlen' : (predictions_list.getD i0' default).y_pred_comb.length = L :=
      hL _ (getD_mem_of_lt _ _ _ (hv' i0' (List.mem_cons_self i0' t')))
    rw [hlen, hlen']
    refine List.map_congr_left (fun j _ => ?_)
    refine nanmean1_perm ?_
    have := hrows.map (fun r => r.getD j none)
    simpa using this

/-- Witness for C4 at a concrete input: a singleton combination returns
the prediction's own combinable view. -/
theorem c4_combine_predictions_witness :
    combine_predictions_list [⟨[some (1/2), some (1/3)]⟩] none =
      [some (1/2), some (1/3)] :=
  (c4_combine_predictions [⟨[some (1/2), some (1/3)]⟩] [0] [0]
    ⟨[some (1/2), some (1/3)]⟩ 2 0).2.2.1 (by decide)

/-! ## C7: cache policy of the fold executor -/

/-- C7 counterexample.  The claim says a cached artifact that fails to
load for any reason triggers a retrain and is never surfaced as a fold
error; but `test_on_fold` catches only IOError, so an artifact whose
unpickling fails propagates an error instead of retraining (shown here at
a concrete model/predictor), unlike the absent-cache case, which does
retrain. -/
theorem c7_counterexample :
    test_on_fold (5 : ℕ) (fun m => m + 1) CacheState.corrupt =
        Except.error PyError.unpicklingError ∧
      test_on_fold (5 : ℕ) (fun m => m + 1) CacheState.missing = Except.ok 6 ∧
      Except.error PyError.unpicklingError ≠ (Except.ok 6 : Except PyError ℕ) :=
  ⟨rfl, rfl, fun h => Except.noConfusion h⟩

/-- C7 amended.  An absent cached artifact (IOError on open) falls back
to retraining and yields exactly the predictions of a clean run with no
cache; a good artifact is used as-is; but a load failure other than
IOError (e.g. a corrupt pickle) propagates and fails the fold. -/
theorem c7_cache_policy {M P : Type} (trained_model : M) (predict : M → P) :
    test_on_fold trained_model predict CacheState.missing =
        Except.ok (predict trained_model) ∧
      (∀ m : M, test_on_fold trained_model predict (CacheState.good m) =
        Except.ok (predict m)) ∧
      test_on_fold trained_model predict CacheState.corrupt =
        Except.error PyError.unpicklingError :=
  ⟨rfl, fun _ => rfl, rfl⟩

/-! ## C6: calibrator behaviour on an absent class -/

/-- C6 counterexample.  The claim says fitting the calibrator on a half
in which some class is absent does not fail; but `IsotonicCalibrator.fit`
indexes `labels[class_index]` over every probability column, and with one
distinct label against two columns this raises an IndexError (modelled as
`none`): there is no prior fallback. -/
theorem c6_counterexample :
    @calFit ℚ (fun _ _ => 0) ⟨2, [[1/2, 1/2]]⟩ [0] = none := rfl

/-- C6 amended.  `IsotonicCalibrator.fit` raises an IndexError exactly
when the calibration half contains fewer distinct labels than there are
probability columns (in particular whenever a class is absent from the
half); it never substitutes the class prior. -/
theorem c6_fit_absent_class {C : Type} (iso_fit : List ℚ → List ℚ → C)
    (X : Mat) (y : List ℚ) :
    calFit iso_fit X y = none ↔ (sorted_unique y).length < X.ncols := by
  unfold calFit
  by_cases h : X.ncols ≤ (sorted_unique y).length
  · rw [if_pos h]
    exact ⟨fun hc => Option.noConfusion hc, fun hlt => absurd hlt (not_lt.mpr h)⟩
  · rw [if_neg h]
    exact ⟨fun _ => lt_of_not_le h, fun _ => rfl⟩

/-! ## C5: two-fold self-calibration does not leak the other half's labels -/

/-- Positions not named by the index list are untouched by a fancy
assignment. -/
lemma writeRows_getD_not_mem (j : ℕ) (d : List ℚ) :
    ∀ (idxs : List ℕ) (vals : List (List ℚ)) (arr : List (List ℚ)), j ∉ idxs →
      (writeRows arr idxs vals).getD j d = arr.getD j d := by
  intro idxs
  induction idxs with
  | nil => intro vals arr _; rfl
  | cons i t ih =>
    intro vals arr hj
    rcases vals with _ | ⟨v, vs⟩
    · rfl
    have hji : i ≠ j := fun h => hj (h ▸ List.mem_cons_self i t)
    have step : writeRows arr (i :: t) (v :: vs) = writeRows (arr.set i v) t vs := rfl
    rw [step, ih vs (arr.set i v) (fun h => hj (List.mem_cons_of_mem i h))]
    simp only [List.getD_eq_getElem?_getD, List.getElem?_set_ne hji]

/-- C5.  In `calibrate` the output rows at the indices of one half are
produced by the calibrator fitted on the other half only: two runs that
agree on the probability matrix, on the split, and on the labels of half
A (`fold1`) produce identical calibrated rows on half B (`fold2`),
regardless of half B's labels, provided the halves are disjoint and both
runs complete. -/
theorem c5_no_leakage {C : Type} [Inhabited C] (iso_fit : List ℚ → List ℚ → C)
    (iso_predict : C → List ℚ → List ℚ) (X : Mat) (y y' : List ℚ)
    (fold1 fold2 : List ℕ) (arr arr' : List (List ℚ))
    (hA : selectIdx y fold1 = selectIdx y' fold1)
    (hdisj : ∀ j ∈ fold2, j ∉ fold1)
    (h1 : calibrate iso_fit iso_predict X y fold1 fold2 = some arr)
    (h2 : calibrate iso_fit iso_predict X y' fold1 fold2 = some arr') :
    ∀ j ∈ fold2, arr.getD j [] = arr'.getD j [] := by
  intro j hj
  unfold calibrate at h1 h2
  rw [← hA] at h2
  rcases hc1 : calFit iso_fit (matSelectRows X fold1) (selectIdx y fold1) with _ | cal1
  · rw [hc1] at h1; exact Option.noConfusion h1
  rw [hc1] at h1 h2
  rcases hc2 : calFit iso_fit (matSelectRows X fold2) (selectIdx y fold2) with _ | cal2
  · rw [hc2] at h1; exact Option.noConfusion h1
  rcases hc2' : calFit iso_fit (matSelectRows X fold2) (selectIdx y' fold2) with _ | cal2'
  · rw [hc2'] at h2; exact Option.noConfusion h2
  rw [hc2] at h1
  rw [hc2'] at h2
  have e1 : writeRows
      (writeRows (X.rows.map (fun _ => List.replicate X.ncols 0)) fold2
        (calPredict iso_predict cal1 (matSelectRows X fold2))) fold1
      (calPredict iso_predict cal2 (matSelectRows X fold1)) = arr :=
    Option.some_inj.mp h1
  have e2 : writeRows
      (writeRows (X.rows.map (fun _ => List.replicate X.ncols 0)) fold2
        (calPredict iso_predict cal1 (matSelectRows X fold2))) fold1
      (calPredict iso_predict cal2' (matSelectRows X fold1)) = arr' :=
    Option.some_inj.mp h2
  rw [← e1, ← e2]
  rw [writeRows_getD_not_mem j [] fold1 _ _ (hdisj j hj),
    writeRows_getD_not_mem j [] fold1 _ _ (hdisj j hj)]

/-- Witness for C5 at a concrete input: flipping the label of the point
in half B does not change B's calibrated row. -/
theorem c5_no_leakage_witness :
    calibrate (fun _ _ => (0 : ℚ)) (fun _ xe => xe) ⟨1, [[1/2], [1/3]]⟩
        [0, 0] [0] [1] = some [[1], [1]] ∧
      calibrate (fun _ _ => (0 : ℚ)) (fun _ xe => xe) ⟨1, [[1/2], [1/3]]⟩
        [0, 1] [0] [1] = some [[1], [1]] ∧
      ([[1], [1]] : List (List ℚ)).getD 1 [] = ([[1], [1]] : List (List ℚ)).getD 1 [] := by
  have ha : calibrate (fun _ _ => (0 : ℚ)) (fun _ xe => xe) ⟨1, [[1/2], [1/3]]⟩
      [0, 0] [0] [1] = some [[1], [1]] := by
    norm_num [calibrate, calFit, calPredict, matSelectRows, matCol, selectIdx,
      sorted_unique, sortLe, insertLe, writeRows, List.range_succ]
  have hb : calibrate (fun _ _ => (0 : ℚ)) (fun _ xe => xe) ⟨1, [[1/2], [1/3]]⟩
      [0, 1] [0] [1] = some [[1], [1]] := by
    norm_num [calibrate, calFit, calPredict, matSelectRows, matCol, selectIdx,
      sorted_unique, sortLe, insertLe, writeRows, List.range_succ]
  exact ⟨ha, hb,
    c5_no_leakage (fun _ _ => (0 : ℚ)) (fun _ xe => xe) ⟨1, [[1/2], [1/3]]⟩
      [0, 0] [0, 1] [0] [1] [[1], [1]] [[1], [1]] (by decide) (by decide)
      ha hb 1 (by decide)⟩

/-! ## C2 / C3: the greedy selection round and loop -/

/-- Characterization of the strict-improvement selection scan shared by
`best_combine` and `get_next_best_single_fold`: after folding over
`range n` the accumulator either still holds the initial value and `-1`
(no candidate strictly beat it, ties included) or holds the first
candidate attaining the strict maximum. -/
lemma select_best_spec {α S : Type} [LinearOrder S] (f : α → S) (v : ℕ → α) (a0 : α) :
    ∀ n : ℕ,
      ((List.range n).foldl
          (fun (acc : α × ℤ) (i : ℕ) => if f (v i) > f acc.1 then (v i, (i : ℤ)) else acc)
          (a0, (-1 : ℤ)) = (a0, -1) ∧ ∀ i, i < n → f (v i) ≤ f a0) ∨
      (∃ i, i < n ∧
        (List.range n).foldl
          (fun (acc : α × ℤ) (i : ℕ) => if f (v i) > f acc.1 then (v i, (i : ℤ)) else acc)
          (a0, (-1 : ℤ)) = (v i, (i : ℤ)) ∧
        f a0 < f (v i) ∧ (∀ j, j < n → f (v j) ≤ f (v i)) ∧ ∀ j, j < i → f (v j) < f (v i)) := by
  intro n
  induction n with
  | zero => exact Or.inl ⟨rfl, fun i hi => absurd hi (Nat.not_lt_zero i)⟩
  | succ n ih =>
    rw [List.range_succ, List.foldl_append]
    rcases ih with ⟨he, hle⟩ | ⟨i, hi, he, hgt, hmax, hmin⟩
    · rw [he]
      by_cases hn : f (v n) > f a0
      · refine Or.inr ⟨n, Nat.lt_succ_self n, ?_, hn, ?_, ?_⟩
        · simp only [List.foldl_cons, List.foldl_nil, if_pos hn]
        · intro j hj
          rcases Nat.lt_succ_iff_lt_or_eq.mp hj with hj' | rfl
          · exact le_of_lt (lt_of_le_of_lt (hle j hj') hn)
          · exact le_refl _
        · intro j hj
          exact lt_of_le_of_lt (hle j hj) hn
      · refine Or.inl ⟨?_, ?_⟩
        · simp only [List.foldl_cons, List.foldl_nil, if_neg hn]
        · intro i hi
          rcases Nat.lt_succ_iff_lt_or_eq.mp hi with hi' | rfl
          · exact hle i hi'
          · exact le_of_not_lt hn
    · rw [he]
      by_cases hn : f (v n) > f (v i)
      · refine Or.inr ⟨n, Nat.lt_succ_self n, ?_, lt_trans hgt hn, ?_, ?_⟩
        · simp only [List.foldl_cons, List.foldl_nil, if_pos hn]
        · intro j hj
          rcases Nat.lt_succ_iff_lt_or_eq.mp hj with hj' | rfl
          · exact le_of_lt (lt_of_le_of_lt (hmax j hj') hn)
          · exact le_refl _
        · intro j hj
          exact lt_of_le_of_lt (hmax j hj) hn
      · refine Or.inr ⟨i, lt_trans hi (Nat.lt_succ_self n), ?_, hgt, ?_, hmin⟩
        · simp only [List.foldl_cons, List.foldl_nil, if_neg hn]
        · intro j hj
          rcases Nat.lt_succ_iff_lt_or_eq.mp hj with hj' | rfl
          · exact hmax j hj'
          · exact le_of_not_lt hn

/-- A natural number cast to an integer is greater than `-1`. -/
lemma neg_one_lt_natCast (i : ℕ) : (-1 : ℤ) < (i : ℤ) :=
  lt_of_lt_of_le (by norm_num) (Int.natCast_nonneg i)

/-- One round of `get_next_best_single_fold` either keeps the index list
(no strict improvement, ties included) or appends the first index whose
extension attains the strictly best combined score. -/
lemma gnbs_cases {G S : Type} [LinearOrder S] (score : G → List (Option ℚ) → S)
    (true_predictions : G) (predictions_list : List Predictions) (bil : List ℕ) :
    (get_next_best_single_fold score true_predictions predictions_list bil =
        (bil, score true_predictions (combine_predictions_list predictions_list (some bil))) ∧
      ∀ i, i < predictions_list.length →
        score true_predictions (combine_predictions_list predictions_list (some (bil ++ [i]))) ≤
          score true_predictions (combine_predictions_list predictions_list (some bil))) ∨
    (∃ i, i < predictions_list.length ∧
      get_next_best_single_fold score true_predictions predictions_list bil =
        (bil ++ [i],
          score true_predictions (combine_predictions_list predictions_list (some (bil ++ [i])))) ∧
      score true_predictions (combine_predictions_list predictions_list (some bil)) <
        score true_predictions (combine_predictions_list predictions_list (some (bil ++ [i]))) ∧
      (∀ j, j < predictions_list.length →
        score true_predictions (combine_predictions_list predictions_list (some (bil ++ [j]))) ≤
          score true_predictions (combine_predictions_list predictions_list (some (bil ++ [i])))) ∧
      ∀ j, j < i →
        score true_predictions (combine_predictions_list predictions_list (some (bil ++ [j]))) <
          score true_predictions (combine_predictions_list predictions_list (some (bil ++ [i])))) := by
  have h := select_best_spec (fun s : S => s)
    (fun i => score true_predictions (combine_predictions_list predictions_list (some (bil ++ [i]))))
    (score true_predictions (combine_predictions_list predictions_list (some bil)))
    predictions_list.length
  simp only [] at h
  unfold get_next_best_single_fold
  rcases h with ⟨he, hle⟩ | ⟨i, hi, he, hgt, hmax, hmin⟩
  · rw [he]
    rw [if_neg (lt_irrefl (-1 : ℤ))]
    exact Or.inl ⟨rfl, hle⟩
  · rw [he]
    rw [if_pos (neg_one_lt_natCast i)]
    refine Or.inr ⟨i, hi, ?_, hgt, hmax, hmin⟩
    rw [Int.toNat_natCast]

/-- One round of `best_combine` either keeps the index list (ties
included) or appends the first index whose extension attains the
strictly best combined score. -/
lemma best_combine_cases {L G S : Type} [Inhabited L] [LinearOrder S] (labels : List L)
    (ground_truth : G) (score : G → List L × List (List ℚ) → S)
    (predictions_list : List (List L × List (List ℚ))) (bil : List ℕ) :
    (best_combine labels ground_truth score predictions_list bil = bil ∧
      ∀ i, i < predictions_list.length →
        score ground_truth (combine_models_using_probas labels predictions_list (bil ++ [i])) ≤
          score ground_truth (combine_models_using_probas labels predictions_list bil)) ∨
    (∃ i, i < predictions_list.length ∧
      best_combine labels ground_truth score predictions_list bil = bil ++ [i] ∧
      score ground_truth (combine_models_using_probas labels predictions_list bil) <
        score ground_truth (combine_models_using_probas labels predictions_list (bil ++ [i])) ∧
      (∀ j, j < predictions_list.length →
        score ground_truth (combine_models_using_probas labels predictions_list (bil ++ [j])) ≤
          score ground_truth (combine_models_using_probas labels predictions_list (bil ++ [i]))) ∧
      ∀ j, j < i →
        score ground_truth (combine_models_using_probas labels predictions_list (bil ++ [j])) <
          score ground_truth (combine_models_using_probas labels predictions_list (bil ++ [i]))) := by
  have h := select_best_spec (fun p => score ground_truth p)
    (fun i => combine_models_using_probas labels predictions_list (bil ++ [i]))
    (combine_models_using_probas labels predictions_list bil)
    predictions_list.length
  simp only [] at h
  unfold best_combine
  rcases h with ⟨he, hle⟩ | ⟨i, hi, he, hgt, hmax, hmin⟩
  · rw [he]
    rw [if_neg (lt_irrefl (-1 : ℤ))]
    exact Or.inl ⟨rfl, hle⟩
  · rw [he]
    rw [if_pos (neg_one_lt_natCast i)]
    refine Or.inr ⟨i, hi, ?_, hgt, hmax, hmin⟩
    rw [Int.toNat_natCast]

/-- The fueled while loop reaches exactly the first fixpoint of `step`
(when one is reached within the fuel): the result is the k-th iterate for
a minimal stopping k, and when fuel remains it is a fixpoint. -/
lemma loop_until_stable_spec (step : List ℕ → List ℕ)
    (hs : ∀ l : List ℕ, step l = l ∨ ∃ x, step l = l ++ [x]) :
    ∀ (fuel : ℕ) (init : List ℕ),
      ∃ k, k ≤ fuel ∧ loop_until_stable step fuel init = step^[k] init ∧
        (∀ j, j < k → step (step^[j] init) ≠ step^[j] init) ∧
        (k < fuel → step (step^[k] init) = step^[k] init) := by
  intro fuel
  induction fuel with
  | zero =>
    intro init
    exact ⟨0, le_refl 0, rfl, fun j hj => absurd hj (Nat.not_lt_zero j),
      fun h => absurd h (lt_irrefl 0)⟩
  | succ fuel ih =>
    intro init
    by_cases hch : (step init).length ≠ init.length
    · have hne : step init ≠ init := fun he => hch (by rw [he])
      obtain ⟨k, hk, he, hmin, hfix⟩ := ih (step init)
      refine ⟨k + 1, Nat.succ_le_succ hk, ?_, ?_, ?_⟩
      · show (if (step init).length ≠ init.length then
            loop_until_stable step fuel (step init) else init) = _
        rw [if_pos hch, he, Function.iterate_succ_apply]
      · intro j hj
        cases j with
        | zero => simpa using hne
        | succ j =>
          rw [Function.iterate_succ_apply]
          exact hmin j (Nat.lt_of_succ_lt_succ hj)
      · intro hk1
        rw [Function.iterate_succ_apply]
        exact hfix (Nat.lt_of_succ_lt_succ hk1)
    · have hstep : step init = init := by
        rcases hs init with h | ⟨x, hx⟩
        · exact h
        · exfalso
          have hlen := not_ne_iff.mp hch
          rw [hx] at hlen
          simp at hlen
      refine ⟨0, Nat.zero_le _, ?_, fun j hj => absurd hj (Nat.not_lt_zero j),
        fun _ => by simpa using hstep⟩
      show (if (step init).length ≠ init.length then
          loop_until_stable step fuel (step init) else init) = _
      rw [if_neg hch]
      rfl

/-- A step that appends at most one element grows the list by at most
one per iteration. -/
lemma iterate_length_le (step : List ℕ → List ℕ)
    (hs : ∀ l : List ℕ, step l = l ∨ ∃ x, step l = l ++ [x]) :
    ∀ (k : ℕ) (init : List ℕ), (step^[k] init).length ≤ init.length + k := by
  intro k
  induction k with
  | zero => intro init; simp
  | succ k ih =>
    intro init
    rw [Function.iterate_succ_apply]
    refine le_trans (ih (step init)) ?_
    rcases hs init with h | ⟨x, hx⟩
    · rw [h]; omega
    · rw [hx]; simp; omega

/-- The index returned by `argmaxIdx` is in range, attains the maximum,
and is the first index to do so. -/
lemma argmaxIdx_spec {β : Type} [LinearOrder β] (d : β) :
    ∀ xs : List β, xs ≠ [] →
      argmaxIdx xs < xs.length ∧
      (∀ k, k < xs.length → xs.getD k d ≤ xs.getD (argmaxIdx xs) d) ∧
      (∀ k, k < argmaxIdx xs → xs.getD k d < xs.getD (argmaxIdx xs) d) := by
  intro xs
  induction xs with
  | nil => intro h; exact absurd rfl h
  | cons x t ih =>
    intro _
    by_cases ht : t = []
    · subst ht
      have h0 : argmaxIdx [x] = 0 := rfl
      rw [h0]
      refine ⟨Nat.zero_lt_one, ?_, fun k hk => absurd hk (Nat.not_lt_zero k)⟩
      intro k hk
      have : k = 0 := Nat.lt_one_iff.mp hk
      subst this
      exact le_refl _
    · obtain ⟨hj, hmax, hmin⟩ := ih ht
      have hsome : t.get? (argmaxIdx t) = some (t.getD (argmaxIdx t) d) := by
        rw [List.getD_eq_getElem t d hj]
        exact List.get?_eq_get hj
      have hunfold : argmaxIdx (x :: t) =
          match t.get? (argmaxIdx t) with
          | some m => if x < m then argmaxIdx t + 1 else 0
          | none => 0 := rfl
      rw [hunfold, hsome]
      have hred : (match some (t.getD (argmaxIdx t) d) with
          | some m => if x < m then argmaxIdx t + 1 else 0
          | none => 0) = if x < t.getD (argmaxIdx t) d then argmaxIdx t + 1 else 0 := rfl
      rw [hred]
      by_cases hx : x < t.getD (argmaxIdx t) d
      · rw [if_pos hx]
        refine ⟨Nat.succ_lt_succ hj, ?_, ?_⟩
        · intro k hk
          cases k with
          | zero => exact le_of_lt hx
          | succ k =>
            rw [List.getD_cons_succ, List.getD_cons_succ]
            exact hmax k (Nat.lt_of_succ_lt_succ hk)
        · intro k hk
          cases k with
          | zero => exact hx
          | succ k =>
            rw [List.getD_cons_succ, List.getD_cons_succ]
            exact hmin k (Nat.lt_of_succ_lt_succ hk)
      · rw [if_neg hx]
        refine ⟨Nat.succ_pos _, ?_, fun k hk => absurd hk (Nat.not_lt_zero k)⟩
        intro k hk
        cases k with
        | zero => exact le_refl _
        | succ k =>
          rw [List.getD_cons_succ, List.getD_cons_zero]
          exact le_trans (hmax k (Nat.lt_of_succ_lt_succ hk)) (le_of_not_lt hx)

/-- C2.  One greedy round, for both implementations of the round
(`best_combine` from generic.py and `get_next_best_single_fold` from
model.py): when no one-index extension scores strictly better than the
current combination (ties included) the input index list is returned
unchanged; when some extension is strictly better, exactly one index is
appended — the first index attaining the strictly best combined score
(nothing prevents it from already being in the list, so re-appending is
allowed); every round returns the input list or the input list plus one
index; and the outer loop of `get_best_index_list` iterates
`best_combine` starting from the singleton list holding the argmax of
the single-model scores — an index attaining the best single score — and
stops the first time a round appends nothing. -/
theorem c2_greedy_round {L G S G2 S2 : Type} [Inhabited L] [LinearOrder S] [LinearOrder S2]
    (labels : List L) (ground_truth : G) (score : G → List L × List (List ℚ) → S)
    (predictions_list : List (List L × List (List ℚ))) (bil : List ℕ) (fuel : ℕ) (d : S)
    (score2 : G2 → List (Option ℚ) → S2) (true_predictions : G2)
    (predictions_list2 : List Predictions) (bil2 : List ℕ) :
    ((∀ i, i < predictions_list.length →
        score ground_truth (combine_models_using_probas labels predictions_list (bil ++ [i])) ≤
          score ground_truth (combine_models_using_probas labels predictions_list bil)) →
      best_combine labels ground_truth score predictions_list bil = bil) ∧
    ((∃ i, i < predictions_list.length ∧
        score ground_truth (combine_models_using_probas labels predictions_list bil) <
          score ground_truth (combine_models_using_probas labels predictions_list (bil ++ [i]))) →
      ∃ i, i < predictions_list.length ∧
        best_combine labels ground_truth score predictions_list bil = bil ++ [i] ∧
        score ground_truth (combine_models_using_probas labels predictions_list bil) <
          score ground_truth (combine_models_using_probas labels predictions_list (bil ++ [i])) ∧
        (∀ j, j < predictions_list.length →
          score ground_truth (combine_models_using_probas labels predictions_list (bil ++ [j])) ≤
            score ground_truth (combine_models_using_probas labels predictions_list (bil ++ [i]))) ∧
        ∀ j, j < i →
          score ground_truth (combine_models_using_probas labels predictions_list (bil ++ [j])) <
            score ground_truth (combine_models_using_probas labels predictions_list (bil ++ [i]))) ∧
    (best_combine labels ground_truth score predictions_list bil = bil ∨
      ∃ i, i < predictions_list.length ∧
        best_combine labels ground_truth score predictions_list bil = bil ++ [i]) ∧
    ((get_best_index_list fuel labels ground_truth score predictions_list).1 =
      loop_until_stable (fun l => best_combine labels ground_truth score predictions_list l) fuel
        [argmaxIdx (predictions_list.map (fun predictions => score ground_truth predictions))]) ∧
    (predictions_list ≠ [] →
      ∀ k, k < (predictions_list.map (fun predictions => score ground_truth predictions)).length →
        (predictions_list.map (fun predictions => score ground_truth predictions)).getD k d ≤
          (predictions_list.map (fun predictions => score ground_truth predictions)).getD
            (argmaxIdx (predictions_list.map (fun predictions => score ground_truth predictions)))
            d) ∧
    (∃ k, k ≤ fuel ∧
      loop_until_stable (fun l => best_combine labels ground_truth score predictions_list l) fuel
          [argmaxIdx (predictions_list.map (fun predictions => score ground_truth predictions))] =
        (fun l => best_combine labels ground_truth score predictions_list l)^[k]
          [argmaxIdx (predictions_list.map (fun predictions => score ground_truth predictions))] ∧
      (∀ j, j < k →
        (fun l => best_combine labels ground_truth score predictions_list l)^[j + 1]
            [argmaxIdx (predictions_list.map (fun predictions => score ground_truth predictions))] ≠
          (fun l => best_combine labels ground_truth score predictions_list l)^[j]
            [argmaxIdx (predictions_list.map (fun predictions => score ground_truth predictions))]) ∧
      (k < fuel →
        (fun l => best_combine labels ground_truth score predictions_list l)^[k + 1]
            [argmaxIdx (predictions_list.map (fun predictions => score ground_truth predictions))] =
          (fun l => best_combine labels ground_truth score predictions_list l)^[k]
            [argmaxIdx (predictions_list.map (fun predictions => score ground_truth predictions))])) ∧
    ((∀ i, i < predictions_list2.length →
        score2 true_predictions (combine_predictions_list predictions_list2 (some (bil2 ++ [i]))) ≤
          score2 true_predictions (combine_predictions_list predictions_list2 (some bil2))) →
      (get_next_best_single_fold score2 true_predictions predictions_list2 bil2).1 = bil2) ∧
    ((∃ i, i < predictions_list2.length ∧
        score2 true_predictions (combine_predictions_list predictions_list2 (some bil2)) <
          score2 true_predictions (combine_predictions_list predictions_list2 (some (bil2 ++ [i])))) →
      ∃ i, i < predictions_list2.length ∧
        (get_next_best_single_fold score2 true_predictions predictions_list2 bil2).1 =
          bil2 ++ [i] ∧
        score2 true_predictions (combine_predictions_list predictions_list2 (some bil2)) <
          score2 true_predictions
            (combine_predictions_list predictions_list2 (some (bil2 ++ [i]))) ∧
        (∀ j, j < predictions_list2.length →
          score2 true_predictions
              (combine_predictions_list predictions_list2 (some (bil2 ++ [j]))) ≤
            score2 true_predictions
              (combine_predictions_list predictions_list2 (some (bil2 ++ [i])))) ∧
        ∀ j, j < i →
          score2 true_predictions
              (combine_predictions_list predictions_list2 (some (bil2 ++ [j]))) <
            score2 true_predictions
              (combine_predictions_list predictions_list2 (some (bil2 ++ [i])))) := by
  refine ⟨?_, ?_, ?_, rfl, ?_, ?_, ?_, ?_⟩
  · intro h
    rcases best_combine_cases labels ground_truth score predictions_list bil with
      ⟨he, -⟩ | ⟨i, hi, -, hgt, -, -⟩
    · exact he
    · exact absurd hgt (not_lt.mpr (h i hi))
  · intro h
    rcases best_combine_cases labels ground_truth score predictions_list bil with
      ⟨-, hle⟩ | ⟨i, hi, he, hgt, hmax, hmin⟩
    · obtain ⟨i, hi, hgt⟩ := h
      exact absurd hgt (not_lt.mpr (hle i hi))
    · exact ⟨i, hi, he, hgt, hmax, hmin⟩
  · rcases best_combine_cases labels ground_truth score predictions_list bil with
      ⟨he, -⟩ | ⟨i, hi, he, -, -, -⟩
    · exact Or.inl he
    · exact Or.inr ⟨i, hi, he⟩
  · intro hpl
    exact (argmaxIdx_spec d _ (by simpa using hpl)).2.1
  · have hs : ∀ l : List ℕ,
        best_combine labels ground_truth score predictions_list l = l ∨
          ∃ x, best_combine labels ground_truth score predictions_list l = l ++ [x] := by
      intro l
      rcases best_combine_cases labels ground_truth score predictions_list l with
        ⟨he, -⟩ | ⟨i, -, he, -, -, -⟩
      · exact Or.inl he
      · exact Or.inr ⟨i, he⟩
    obtain ⟨k, hk, he, hmin, hfix⟩ :=
      loop_until_stable_spec (fun l => best_combine labels ground_truth score predictions_list l)
        hs fuel
        [argmaxIdx (predictions_list.map (fun predictions => score ground_truth predictions))]
    refine ⟨k, hk, he, ?_, ?_⟩
    · intro j hj
      rw [Function.iterate_succ_apply']
      exact hmin j hj
    · intro hkf
      rw [Function.iterate_succ_apply']
      exact hfix hkf
  · intro h
    rcases gnbs_cases score2 true_predictions predictions_list2 bil2 with
      ⟨he, -⟩ | ⟨i, hi, -, hgt, -, -⟩
    · rw [he]
    · exact absurd hgt (not_lt.mpr (h i hi))
  · intro h
    rcases gnbs_cases score2 true_predictions predictions_list2 bil2 with
      ⟨-, hle⟩ | ⟨i, hi, he, hgt, hmax, hmin⟩
    · obtain ⟨i, hi, hgt⟩ := h
      exact absurd hgt (not_lt.mpr (hle i hi))
    · exact ⟨i, hi, by rw [he], hgt, hmax, hmin⟩

/-- Witness for C2 at a concrete input: with a constant score there is no
strict improvement, so a round keeps the index list unchanged, ties
included. -/
theorem c2_greedy_round_witness :
    best_combine ([5, 7] : List ℕ) () (fun _ _ => (0 : ℚ))
      [([5], [[0]]), ([7], [[1]])] [1] = [1] :=
  (c2_greedy_round ([5, 7] : List ℕ) () (fun _ _ => (0 : ℚ))
    [([5], [[0]]), ([7], [[1]])] [1] 3 0 (fun (_ : Unit) _ => (0 : ℚ)) ()
    [] []).1 (fun _ _ => le_refl 0)

/-- C3.  Modelled from the spec (the bounded caller of
`get_next_best_single_fold` is not among the sources, only its per-round
step and the configured bound `max_n_ensemble` are): for every finite
model pool and every linearly ordered score, the bounded greedy loop run
with `max_n_ensemble` fuel terminates after at most `max_n_ensemble`
rounds — its result is the k-th iterate of the round for some
k ≤ `max_n_ensemble`, a fixpoint when it stopped early, and the index
list grows by at most `max_n_ensemble` — and the running combined score
never decreases from one round to the next. -/
theorem c3_bounded_greedy {G S : Type} [LinearOrder S]
    (score : G → List (Option ℚ) → S) (true_predictions : G)
    (predictions_list : List Predictions) (init : List ℕ) :
    (∃ k, k ≤ max_n_ensemble ∧
      combined_predictions_single_fold score true_predictions predictions_list
          max_n_ensemble init =
        (fun l => (get_next_best_single_fold score true_predictions predictions_list l).1)^[k]
          init ∧
      (k < max_n_ensemble →
        (fun l => (get_next_best_single_fold score true_predictions predictions_list l).1)^[k + 1]
            init =
          (fun l => (get_next_best_single_fold score true_predictions predictions_list l).1)^[k]
            init)) ∧
    (combined_predictions_single_fold score true_predictions predictions_list
        max_n_ensemble init).length ≤ init.length + max_n_ensemble ∧
    (∀ l : List ℕ,
      score true_predictions (combine_predictions_list predictions_list (some l)) ≤
        score true_predictions (combine_predictions_list predictions_list
          (some ((get_next_best_single_fold score true_predictions predictions_list l).1)))) ∧
    (∀ j : ℕ,
      score true_predictions (combine_predictions_list predictions_list
          (some ((fun l =>
            (get_next_best_single_fold score true_predictions predictions_list l).1)^[j] init))) ≤
        score true_predictions (combine_predictions_list predictions_list
          (some ((fun l =>
            (get_next_best_single_fold score true_predictions predictions_list l).1)^[j + 1]
            init)))) := by
  have hs : ∀ l : List ℕ,
      (get_next_best_single_fold score true_predictions predictions_list l).1 = l ∨
        ∃ x, (get_next_best_single_fold score true_predictions predictions_list l).1 =
          l ++ [x] := by
    intro l
    rcases gnbs_cases score true_predictions predictions_list l with
      ⟨he, -⟩ | ⟨i, -, he, -, -, -⟩
    · exact Or.inl (by rw [he])
    · exact Or.inr ⟨i, by rw [he]⟩
  have hmono : ∀ l : List ℕ,
      score true_predictions (combine_predictions_list predictions_list (some l)) ≤
        score true_predictions (combine_predictions_list predictions_list
          (some ((get_next_best_single_fold score true_predictions predictions_list l).1))) := by
    intro l
    rcases gnbs_cases score true_predictions predictions_list l with
      ⟨he, -⟩ | ⟨i, -, he, hgt, -, -⟩
    · rw [he]
    · rw [he]
      exact le_of_lt hgt
  obtain ⟨k, hk, he, hmin, hfix⟩ :=
    loop_until_stable_spec
      (fun l => (get_next_best_single_fold score true_predictions predictions_list l).1)
      hs max_n_ensemble init
  refine ⟨⟨k, hk, he, fun hkf => ?_⟩, ?_, hmono, fun j => ?_⟩
  · rw [Function.iterate_succ_apply']
    exact hfix hkf
  · show (combined_predictions_single_fold score true_predictions predictions_list
      max_n_ensemble init).length ≤ init.length + max_n_ensemble
    have hlen := iterate_length_le
      (fun l => (get_next_best_single_fold score true_predictions predictions_list l).1)
      hs k init
    calc (combined_predictions_single_fold score true_predictions predictions_list
          max_n_ensemble init).length
        = ((fun l =>
            (get_next_best_single_fold score true_predictions predictions_list l).1)^[k]
            init).length := by unfold combined_predictions_single_fold; rw [he]
      _ ≤ init.length + k := hlen
      _ ≤ init.length + max_n_ensemble := Nat.add_le_add_left hk _
  · rw [Function.iterate_succ_apply']
    exact hmono _

/-! ## C8: leaderboard averaging and ranking -/

/-- Inserting into a list permutes to consing. -/
lemma insertLe_perm {α : Type} (le : α → α → Bool) (x : α) :
    ∀ l : List α, (insertLe le x l).Perm (x :: l) := by
  intro l
  induction l with
  | nil => exact List.Perm.refl _
  | cons y ys ih =>
    unfold insertLe
    by_cases h : le x y = true
    · rw [if_pos h]
    · rw [if_neg h]
      exact List.Perm.trans (List.Perm.cons y ih) (List.Perm.swap x y ys)

/-- Insertion sort permutes its input. -/
lemma sortLe_perm {α : Type} (le : α → α → Bool) :
    ∀ l : List α, (sortLe le l).Perm l := by
  intro l
  induction l with
  | nil => exact List.Perm.refl _
  | cons x xs ih =>
    exact List.Perm.trans (insertLe_perm le x (sortLe le xs)) (List.Perm.cons x ih)

/-- Inserting into a sorted list keeps it sorted, for a total transitive
boolean comparison. -/
lemma insertLe_pairwise {α : Type} (le : α → α → Bool)
    (htot : ∀ a b, le a b = true ∨ le b a = true)
    (htrans : ∀ a b c, le a b = true → le b c = true → le a c = true) (x : α) :
    ∀ l : List α, l.Pairwise (fun a b => le a b = true) →
      (insertLe le x l).Pairwise (fun a b => le a b = true) := by
  intro l
  induction l with
  | nil => intro _; simp [insertLe]
  | cons y ys ih =>
    intro hl
    obtain ⟨hy, hys⟩ := List.pairwise_cons.mp hl
    unfold insertLe
    by_cases h : le x y = true
    · rw [if_pos h]
      refine List.Pairwise.cons ?_ hl
      intro b hb
      rcases List.mem_cons.mp hb with rfl | hb'
      · exact h
      · exact htrans x y b h (hy b hb')
    · rw [if_neg h]
      have hyx : le y x = true := (htot x y).resolve_left h
      refine List.Pairwise.cons ?_ (ih hys)
      intro b hb
      rcases List.mem_cons.mp ((insertLe_perm le x ys).mem_iff.mp hb) with rfl | hb'
      · exact hyx
      · exact hy b hb'

/-- Insertion sort sorts, for a total transitive boolean comparison. -/
lemma sortLe_pairwise {α : Type} (le : α → α → Bool)
    (htot : ∀ a b, le a b = true ∨ le b a = true)
    (htrans : ∀ a b c, le a b = true → le b c = true → le a c = true) :
    ∀ l : List α, (sortLe le l).Pairwise (fun a b => le a b = true) := by
  intro l
  induction l with
  | nil => exact List.Pairwise.nil
  | cons x xs ih => exact insertLe_pairwise le htot htrans x (sortLe le xs) ih

/-- Reading an element of a mapped range. -/
lemma getD_map_range {α : Type} (f : ℕ → α) (m j : ℕ) (hj : j < m) (d : α) :
    ((List.range m).map f).getD j d = f j := by
  have hlen : j < ((List.range m).map f).length := by simpa using hj
  rw [List.getD_eq_getElem _ _ hlen, List.getElem_map, List.getElem_range]

/-- C8 counterexample.  The claim says both leaderboards are returned
best-first (descending); but `leaderboard_classical` uses the pandas
default ascending sort, so with two models of mean scores 0 and 1 (and
`>` meaning better) the better model is listed last: the output is not
descending in the score. -/
theorem c8_counterexample :
    @leaderboard_classical ℚ _ [[0, 1]] 2 = [(0, 0), (1, 1)] ∧
      ¬ List.Pairwise (fun a b : ℕ × ℚ => b.2 ≤ a.2) [(0, 0), (1, 1)] := by
  constructor
  · norm_num [leaderboard_classical, sortLe, insertLe, List.range_succ]
  · decide

/-- C8 amended.  `leaderboard_classical` returns one entry per model
holding the mean of its per-fold scores, sorted ascending in the score's
own order (best last, since `>` means better); `leaderboard_combination`
returns one entry per model holding the summed histogram tallies of the
per-fold best index lists — under in-range indices exactly the number of
times the greedy engine selected that model — sorted descending
(best first). -/
theorem c8_leaderboards {S : Type} [LinearOrderedField S]
    (scores_list : List (List S)) (m : ℕ) (best_index_lists : List (List ℕ)) :
    (leaderboard_classical scores_list m).Perm
      ((List.range m).map (fun j =>
        (j, (scores_list.map (fun row => row.getD j 0)).sum / scores_list.length))) ∧
    List.Pairwise (fun a b : ℕ × S => a.2 ≤ b.2) (leaderboard_classical scores_list m) ∧
    (leaderboard_combination m best_index_lists).Perm
      ((List.range m).map (fun j =>
        (j, (best_index_lists.map (fun bil => histCount m bil j)).sum))) ∧
    List.Pairwise (fun a b : ℕ × ℕ => b.2 ≤ a.2) (leaderboard_combination m best_index_lists) ∧
    ((∀ bil ∈ best_index_lists, ∀ v ∈ bil, v < m) →
      ∀ bil ∈ best_index_lists, ∀ j, j < m →
        histCount m bil j = bil.countP (fun v => decide (v = j))) := by
  refine ⟨?_, ?_, ?_, ?_, ?_⟩
  · unfold leaderboard_classical
    refine List.Perm.trans (sortLe_perm _ _) ?_
    rw [List.map_congr_left (fun j hj => ?_)]
    rw [getD_map_range _ _ _ (List.mem_range.mp hj)]
  · have h := sortLe_pairwise (fun a b : ℕ × S => decide (a.2 ≤ b.2))
      (fun a b => (le_total a.2 b.2).imp decide_eq_true decide_eq_true)
      (fun a b c hab hbc =>
        decide_eq_true (le_trans (of_decide_eq_true hab) (of_decide_eq_true hbc)))
      ((List.range m).map (fun j =>
        (j, ((List.range m).map (fun j =>
          (scores_list.map (fun row => row.getD j 0)).sum / scores_list.length)).getD j 0)))
    exact h.imp (fun hab => of_decide_eq_true hab)
  · unfold leaderboard_combination
    refine List.Perm.trans (sortLe_perm _ _) ?_
    rw [List.map_congr_left (fun j hj => ?_)]
    rw [getD_map_range _ _ _ (List.mem_range.mp hj)]
  · have h := sortLe_pairwise (fun a b : ℕ × ℕ => decide (b.2 ≤ a.2))
      (fun a b => (le_total b.2 a.2).imp decide_eq_true decide_eq_true)
      (fun a b c hab hbc =>
        decide_eq_true (le_trans (of_decide_eq_true hbc) (of_decide_eq_true hab)))
      ((List.range m).map (fun j =>
        (j, ((List.range m).map (fun j =>
          (best_index_lists.map (fun bil => histCount m bil j)).sum)).getD j 0)))
    exact h.imp (fun hab => of_decide_eq_true hab)
  · intro hin bil hbil j hj
    unfold histCount
    refine List.countP_congr (fun v hv => ?_)
    by_cases hlast : j + 1 = m
    · have hvm : v ≠ m := Nat.ne_of_lt (hin bil hbil v hv)
      simp [hlast, hvm]
    · simp [hlast]

/-- Witness for C8 at a concrete input: with all selected indices in
range, the histogram tally equals the plain occurrence count. -/
theorem c8_leaderboards_witness :
    histCount 1 [0] 0 = List.countP (fun v => decide (v = 0)) [0] :=
  (@c8_leaderboards ℚ _ [[0]] 1 [[0]]).2.2.2.2 (by decide) [0] (by decide) 0 (by decide)

end Databoard
